import Mathlib

/-
Verification of the training control loop, evaluator reductions, checkpoint
handling and test-mode reductions of src/train.py (style-binary-classification).

The loop is embedded as a pure state machine.  Model/optimizer state and the
actual loss values are external inputs: an environment assigns to every epoch
a list of per-step data (the step's training loss and the per-batch validation
losses a sub-epoch validation would observe at that step) and the per-batch
losses of the epoch-end validation pass.  The mutable Python state
(init_val_loss, count, existence of the checkpoint directory) is the record St;
observable actions (metric emissions, checkpoint saves, early-stop checks) are
collected in an event trace.
-/

namespace StyleTrain

/-- Command-line configuration fields used by the training loop
(src/train.py lines 196-210). -/
structure Config where
  epochs : ℕ
  warmStartEpoch : ℕ
  patience : ℤ
  trainSize : ℕ
  trainBatch : ℕ
  valSize : ℕ
  valBatch : ℕ
  warmStart : Bool

/-- External inputs for one training step: the training loss of the step
and the per-batch losses a sub-epoch validation pass would produce if run
right after this step. -/
structure StepData where
  trainLoss : ℚ
  valBatches : List ℚ

/-- External inputs for one epoch: the per-step data and the per-batch
losses of the epoch-end validation pass. -/
structure EpochData where
  steps : List StepData
  endValBatches : List ℚ

/-- Observable actions of the loop.  Save events record whether the
checkpoint directory existed at the moment the save call executes. -/
inductive Event where
  | trainStep (epoch step : ℕ) (loss : ℚ)
  | subCheck (avg : ℚ) (improved : Bool) (countAfter : ℕ)
  | saveSub (label : ℕ) (loss : ℚ) (dirAtSave : Bool)
  | epochLog (label : ℕ) (trainAvg valAvg : ℚ)
  | saveEpoch (label : ℕ) (loss : ℚ) (dirAtSave : Bool)
  | endCheck (improved : Bool) (countAfter : ℕ)
deriving DecidableEq

/-- Mutable state of the loop: init_val_loss (none encodes the initial
float('inf'), line 63), the early-stopping counter (line 62) and whether
the checkpoint directory currently exists. -/
structure St where
  best : Option ℚ
  count : ℕ
  dir : Bool

/-- The comparison avg_val_loss < init_val_loss (lines 98 and 132), with
init_val_loss = float('inf') encoded as none. -/
def ltBest (v : ℚ) (b : Option ℚ) : Bool :=
  match b with
  | none => true
  | some x => decide (v < x)

/-- Create the checkpoint directory if it does not exist
(lines 102-103 and 136-137). -/
def mkdirIfAbsent (s : St) : St :=
  if s.dir then s else { s with dir := true }

/-- Sub-epoch validation reduction, line 95:
sum(batch_val_losses) / (len(valset) // config.val_batch_size + 1). -/
def subValReduce (cfg : Config) (batchLosses : List ℚ) : ℚ :=
  batchLosses.sum / ((cfg.valSize / cfg.valBatch + 1 : ℕ) : ℚ)

/-- Epoch-end validation reduction, line 124:
sum(batch_val_losses) / (len(valset) // config.val_batch_size + 1). -/
def endValReduce (cfg : Config) (batchLosses : List ℚ) : ℚ :=
  batchLosses.sum / ((cfg.valSize / cfg.valBatch + 1 : ℕ) : ℚ)

/-- Epoch training-loss reduction, line 109:
sum(batch_losses) / (len(trainset) // config.train_batch_size + 1). -/
def trainReduce (cfg : Config) (batchLosses : List ℚ) : ℚ :=
  batchLosses.sum / ((cfg.trainSize / cfg.trainBatch + 1 : ℕ) : ℚ)

structure StepOut where
  state : St
  trace : List Event

/-- One training step (lines 69-106), i is the 0-indexed enumerate index.
Every 4th step, 1-indexed (line 86), runs a sub-epoch validation; on strict
improvement it updates init_val_loss, creates the checkpoint directory if
absent (lines 102-103) and then saves a checkpoint labeled (i+1)//6
(line 105).  The early-stopping counter is not touched here. -/
def processStep (cfg : Config) (epoch i : ℕ) (sd : StepData) (s : St) : StepOut :=
  let base := [Event.trainStep epoch i sd.trainLoss]
  if (i + 1) % 4 = 0 then
    let avg := subValReduce cfg sd.valBatches
    if ltBest avg s.best then
      let sDir := mkdirIfAbsent { s with best := some avg }
      { state := sDir
        trace := base ++ [Event.subCheck avg true sDir.count,
                          Event.saveSub ((i + 1) / 6) avg sDir.dir] }
    else
      { state := s, trace := base ++ [Event.subCheck avg false s.count] }
  else
    { state := s, trace := base }

/-- The inner loop over the epoch's training steps (line 69). -/
def runSteps (cfg : Config) (epoch : ℕ) : List StepData → ℕ → St → StepOut
  | [], _, s => { state := s, trace := [] }
  | sd :: rest, i, s =>
    let r1 := processStep cfg epoch i sd s
    let r2 := runSteps cfg epoch rest (i + 1) r1.state
    { state := r2.state, trace := r1.trace ++ r2.trace }

structure EpochOut where
  state : St
  trace : List Event
  brk : Bool

/-- One iteration of the epoch loop (lines 67-145): the steps, the epoch
train-loss reduction (line 109), the epoch-end validation (lines 116-124),
the paired metric emission (line 127), the unconditional checkpoint save
tagged epoch+1 (line 130, with no directory-existence check before it),
then the early-stopping policy (lines 132-145): on strict improvement the
best is updated, the directory is created if absent and the counter resets
to 0; otherwise the counter increments and the loop breaks when it equals
the configured patience. -/
def runEpoch (cfg : Config) (epoch : ℕ) (ep : EpochData) (s : St) : EpochOut :=
  let r1 := runSteps cfg epoch ep.steps 0 s
  let trainAvg := trainReduce cfg (ep.steps.map StepData.trainLoss)
  let valAvg := endValReduce cfg ep.endValBatches
  let evs := r1.trace ++ [Event.epochLog (epoch + 1) trainAvg valAvg,
                          Event.saveEpoch (epoch + 1) valAvg r1.state.dir]
  if ltBest valAvg r1.state.best then
    let sDir := mkdirIfAbsent { r1.state with best := some valAvg }
    let sDone := { sDir with count := 0 }
    { state := sDone, trace := evs ++ [Event.endCheck true 0], brk := false }
  else
    let sDone := { r1.state with count := r1.state.count + 1 }
    { state := sDone, trace := evs ++ [Event.endCheck false sDone.count],
      brk := decide ((sDone.count : ℤ) = cfg.patience) }

structure RunOut where
  state : St
  trace : List Event
  executed : ℕ
  broke : Bool

/-- The epoch loop, for epoch in range(warm_start_epoch, epochs) with the
early-stopping break (line 145).  An epoch at which the break fires still
counts as executed: the break sits at the very end of the epoch body. -/
def runFrom (cfg : Config) (env : ℕ → EpochData) : ℕ → ℕ → St → RunOut
  | 0, _, s => { state := s, trace := [], executed := 0, broke := false }
  | fuel + 1, e, s =>
    let r1 := runEpoch cfg e (env e) s
    if r1.brk then
      { state := r1.state, trace := r1.trace, executed := 1, broke := true }
    else
      let r2 := runFrom cfg env fuel (e + 1) r1.state
      { state := r2.state, trace := r1.trace ++ r2.trace,
        executed := r2.executed + 1, broke := r2.broke }

/-- A full training run (line 66): epochs warm_start_epoch..epochs-1,
starting with init_val_loss = inf, counter 0, and the given initial
existence status of the checkpoint directory. -/
def runTrain (cfg : Config) (env : ℕ → EpochData) (dirAtStart : Bool) : RunOut :=
  runFrom cfg env (cfg.epochs - cfg.warmStartEpoch) cfg.warmStartEpoch
    { best := none, count := 0, dir := dirAtStart }

inductive TrainError where
  | checkpointNotFound
deriving DecidableEq

/-- Warm-start checkpoint filename, line 36: 'epoch-%d.pth' % warm_start_epoch. -/
def ckptName (n : ℕ) : String := "epoch-" ++ toString n ++ ".pth"

/-- The training entry point: with warm_start set, the checkpoint for
warm_start_epoch is loaded (lines 35-37) before the epoch loop begins;
if the file is absent the run aborts and no training happens. -/
def trainMain (cfg : Config) (files : List String) (env : ℕ → EpochData)
    (dirAtStart : Bool) : Except TrainError RunOut :=
  if cfg.warmStart = true ∧ ckptName cfg.warmStartEpoch ∉ files then
    Except.error TrainError.checkpointNotFound
  else
    Except.ok (runTrain cfg env dirAtStart)

/-- Test-mode weighted mean of a 10-way score vector, lines 175-176:
for i, elem in enumerate(output, 1): predicted_mean += i * elem. -/
def predictedMean (scores : List ℚ) : ℚ :=
  (scores.enumFrom 1).foldl (fun acc p => acc + (p.1 : ℚ) * p.2) 0

/-- Test-mode weighted variance, lines 177-178, using the fully computed
mean in every summand:
for j, elem in enumerate(output, 1): predicted_std += elem * (j - predicted_mean) ** 2.
Line 179 then takes predicted_std ** 0.5; the square root is kept symbolic
(the value here is the quantity under the root). -/
def predictedStdSq (scores : List ℚ) : ℚ :=
  let m := predictedMean scores
  (scores.enumFrom 1).foldl (fun acc p => acc + p.2 * ((p.1 : ℚ) - m) ^ 2) 0

/-- The test-mode loop, lines 168-181: per sample, both reductions are
recomputed from zero and appended to the mean_preds / std_preds lists. -/
def testLoop (outputs : List (List ℚ)) : List ℚ × List ℚ :=
  outputs.foldl
    (fun acc output =>
      let pm := (output.enumFrom 1).foldl (fun a p => a + (p.1 : ℚ) * p.2) 0
      let ps := (output.enumFrom 1).foldl (fun a p => a + p.2 * ((p.1 : ℚ) - pm) ^ 2) 0
      (acc.1 ++ [pm], acc.2 ++ [ps]))
    ([], [])

/-- The epoch-end improvement outcomes of a trace, in order. -/
def endOutcomes (tr : List Event) : List Bool :=
  tr.filterMap (fun ev =>
    match ev with
    | Event.endCheck b _ => some b
    | _ => none)

/-- Value of the early-stopping counter after processing a list of
epoch-end outcomes, starting from c: reset to 0 on improvement, increment
otherwise. -/
def countAfter (c : ℕ) (l : List Bool) : ℕ :=
  l.foldl (fun acc b => if b then 0 else acc + 1) c

/-- Somewhere in l there are P consecutive false entries. -/
def hasFalseRun (P : ℕ) (l : List Bool) : Prop :=
  ∃ l1 w l2, l = l1 ++ w ++ l2 ∧ w.length = P ∧ ∀ b ∈ w, b = false

/-- Strict order on recorded best losses, none encoding +infinity. -/
def bestLt (a b : Option ℚ) : Prop :=
  match a, b with
  | none, _ => False
  | some _, none => True
  | some y, some x => y < x

/-- A sub-epoch save event whose directory flag says the checkpoint
directory did not exist when the save executed. -/
def subSaveWithoutDir (ev : Event) : Bool :=
  match ev with
  | Event.saveSub _ _ false => true
  | _ => false

lemma mkdirIfAbsent_dir (s : St) : (mkdirIfAbsent s).dir = true := by
  unfold mkdirIfAbsent
  split
  · assumption
  · rfl

lemma mkdirIfAbsent_count (s : St) : (mkdirIfAbsent s).count = s.count := by
  unfold mkdirIfAbsent
  split <;> rfl

lemma mkdirIfAbsent_best (s : St) : (mkdirIfAbsent s).best = s.best := by
  unfold mkdirIfAbsent
  split <;> rfl

lemma processStep_count (cfg : Config) (epoch i : ℕ) (sd : StepData) (s : St) :
    (processStep cfg epoch i sd s).state.count = s.count := by
  unfold processStep
  split
  · dsimp only
    split
    · exact mkdirIfAbsent_count _
    · rfl
  · rfl

lemma runSteps_count (cfg : Config) (epoch : ℕ) (l : List StepData) :
    ∀ (i : ℕ) (s : St), (runSteps cfg epoch l i s).state.count = s.count := by
  induction l with
  | nil => intro i s; rfl
  | cons sd rest ih =>
    intro i s
    show (runSteps cfg epoch rest (i + 1) (processStep cfg epoch i sd s).state).state.count = _
    rw [ih, processStep_count]

/-- C3 (confirmed): both the sub-epoch and the epoch-end validation passes
reduce the summed per-batch losses to a mean by dividing by
floor(datasetSize / batchSize) + 1; for a 100-sample validation set with
batch size 30 the denominator is 100 / 30 + 1 = 4. -/
theorem val_reduction_denominator :
    (∀ (cfg : Config) (bs : List ℚ), subValReduce cfg bs = endValReduce cfg bs) ∧
    (∀ (cfg : Config) (bs : List ℚ),
      endValReduce cfg bs = bs.sum / ((cfg.valSize / cfg.valBatch + 1 : ℕ) : ℚ)) ∧
    (∀ (cfg : Config) (bs : List ℚ),
      subValReduce { cfg with valSize := 100, valBatch := 30 } bs = bs.sum / 4) ∧
    (∀ (cfg : Config) (bs : List ℚ),
      endValReduce { cfg with valSize := 100, valBatch := 30 } bs = bs.sum / 4) := by
  refine ⟨fun cfg bs => rfl, fun cfg bs => rfl, fun cfg bs => ?_, fun cfg bs => ?_⟩ <;>
    norm_num [subValReduce, endValReduce]

lemma testLoop_fold (outputs : List (List ℚ)) : ∀ (a b : List ℚ),
    outputs.foldl
      (fun acc output =>
        let pm := (output.enumFrom 1).foldl (fun x p => x + (p.1 : ℚ) * p.2) 0
        let ps := (output.enumFrom 1).foldl (fun x p => x + p.2 * ((p.1 : ℚ) - pm) ^ 2) 0
        (acc.1 ++ [pm], acc.2 ++ [ps]))
      (a, b) =
    (a ++ outputs.map predictedMean, b ++ outputs.map predictedStdSq) := by
  induction outputs with
  | nil => intro a b; simp
  | cons o t ih =>
    intro a b
    show List.foldl _ (a ++ [predictedMean o], b ++ [predictedStdSq o]) t = _
    rw [ih]
    simp

/-- C9 (confirmed): the test-mode reduction is a pure per-sample map with
no state carried across samples; per sample, mean is the weighted sum over
ranks 1..10 of rank times score, the std sum uses the fully computed mean,
and for the score vector with all mass on rank 1 the mean is 1 and the std
(the square root of the accumulated sum) is 0. -/
theorem test_mode_reduction :
    (∀ outputs : List (List ℚ),
      testLoop outputs = (outputs.map predictedMean, outputs.map predictedStdSq)) ∧
    predictedMean [1, 0, 0, 0, 0, 0, 0, 0, 0, 0] = 1 ∧
    predictedStdSq [1, 0, 0, 0, 0, 0, 0, 0, 0, 0] = 0 ∧
    Real.sqrt ((predictedStdSq [1, 0, 0, 0, 0, 0, 0, 0, 0, 0] : ℚ) : ℝ) = 0 := by
  have hmean : predictedMean [1, 0, 0, 0, 0, 0, 0, 0, 0, 0] = 1 := by
    norm_num [predictedMean, List.enumFrom]
  have hstd : predictedStdSq [1, 0, 0, 0, 0, 0, 0, 0, 0, 0] = 0 := by
    norm_num [predictedStdSq, predictedMean, List.enumFrom]
  refine ⟨fun outputs => ?_, hmean, hstd, ?_⟩
  · have := testLoop_fold outputs [] []
    simpa [testLoop] using this
  · rw [hstd]
    norm_num

/-- C8 (confirmed): with warm start enabled and the checkpoint file for the
warm-start epoch absent, the run aborts with a checkpoint-not-found error;
the load sits before the training loop, so no training step executes. -/
theorem warm_start_missing_aborts (cfg : Config) (files : List String)
    (env : ℕ → EpochData) (d : Bool) (h1 : cfg.warmStart = true)
    (h2 : ckptName cfg.warmStartEpoch ∉ files) :
    trainMain cfg files env d = Except.error TrainError.checkpointNotFound := by
  simp [trainMain, h1, h2]

def cfg8w : Config :=
  { epochs := 3, warmStartEpoch := 5, patience := 10, trainSize := 0, trainBatch := 1,
    valSize := 0, valBatch := 1, warmStart := true }

def env8w : ℕ → EpochData := fun _ => { steps := [], endValBatches := [] }

theorem warm_start_missing_aborts_witness :
    trainMain cfg8w [] env8w false = Except.error TrainError.checkpointNotFound :=
  warm_start_missing_aborts cfg8w [] env8w false rfl (by simp)

lemma endOutcomes_append (t1 t2 : List Event) :
    endOutcomes (t1 ++ t2) = endOutcomes t1 ++ endOutcomes t2 :=
  List.filterMap_append _ _ _

lemma processStep_endOutcomes (cfg : Config) (epoch i : ℕ) (sd : StepData) (s : St) :
    endOutcomes (processStep cfg epoch i sd s).trace = [] := by
  unfold processStep
  split
  · dsimp only
    split <;> simp [endOutcomes, List.filterMap_cons]
  · simp [endOutcomes, List.filterMap_cons]

lemma runSteps_endOutcomes (cfg : Config) (epoch : ℕ) (l : List StepData) :
    ∀ (i : ℕ) (s : St), endOutcomes (runSteps cfg epoch l i s).trace = [] := by
  induction l with
  | nil => intro i s; rfl
  | cons sd rest ih =>
    intro i s
    show endOutcomes ((processStep cfg epoch i sd s).trace ++ _) = []
    rw [endOutcomes_append, processStep_endOutcomes, ih]
    rfl

lemma runEpoch_endOutcomes (cfg : Config) (epoch : ℕ) (ep : EpochData) (s : St) :
    endOutcomes (runEpoch cfg epoch ep s).trace =
      [ltBest (endValReduce cfg ep.endValBatches)
        (runSteps cfg epoch ep.steps 0 s).state.best] := by
  unfold runEpoch
  dsimp only
  split
  case isTrue h =>
    rw [h, endOutcomes_append, endOutcomes_append, runSteps_endOutcomes]
    rfl
  case isFalse h =>
    rw [Bool.not_eq_true] at h
    rw [h, endOutcomes_append, endOutcomes_append, runSteps_endOutcomes]
    rfl

lemma runEpoch_count (cfg : Config) (epoch : ℕ) (ep : EpochData) (s : St) :
    (runEpoch cfg epoch ep s).state.count =
      if ltBest (endValReduce cfg ep.endValBatches)
          (runSteps cfg epoch ep.steps 0 s).state.best then 0
      else s.count + 1 := by
  unfold runEpoch
  dsimp only
  split
  case isTrue h => simp [h]
  case isFalse h =>
    rw [Bool.not_eq_true] at h
    simp [h, runSteps_count]

lemma runEpoch_brk_iff (cfg : Config) (epoch : ℕ) (ep : EpochData) (s : St) :
    (runEpoch cfg epoch ep s).brk = true ↔
      (ltBest (endValReduce cfg ep.endValBatches)
          (runSteps cfg epoch ep.steps 0 s).state.best = false ∧
        ((s.count + 1 : ℕ) : ℤ) = cfg.patience) := by
  unfold runEpoch
  dsimp only
  split
  case isTrue h => simp [h]
  case isFalse h =>
    rw [Bool.not_eq_true] at h
    simp [h, runSteps_count]

lemma countAfter_cons (c : ℕ) (b : Bool) (l : List Bool) :
    countAfter c (b :: l) = countAfter (if b then 0 else c + 1) l := rfl

lemma countAfter_append (c : ℕ) (l1 l2 : List Bool) :
    countAfter c (l1 ++ l2) = countAfter (countAfter c l1) l2 := by
  simp [countAfter, List.foldl_append]

lemma countAfter_allFalse (w : List Bool) :
    ∀ (c : ℕ), (∀ b ∈ w, b = false) → countAfter c w = c + w.length := by
  induction w with
  | nil => intro c _; rfl
  | cons b t ih =>
    intro c h
    have hb : b = false := h b (by simp)
    rw [hb, countAfter_cons]
    simp only [if_neg Bool.false_ne_true]
    rw [ih (c + 1) (fun x hx => h x (by simp [hx]))]
    simp only [List.length_cons]
    omega

lemma countAfter_decomp (l : List Bool) :
    ∀ (c P : ℕ), countAfter c l = P → 1 ≤ P →
      (∃ l1 w, l = l1 ++ w ∧ w.length = P ∧ ∀ b ∈ w, b = false) ∨
      ((∀ b ∈ l, b = false) ∧ c + l.length = P) := by
  induction l using List.reverseRecOn with
  | nil =>
    intro c P h _
    right
    exact ⟨by simp, by simpa [countAfter] using h⟩
  | append_singleton t b ih =>
    intro c P h hP
    rw [countAfter_append] at h
    cases b with
    | true =>
      exfalso
      simp [countAfter] at h
      omega
    | false =>
      have h' : countAfter c t + 1 = P := by simpa [countAfter] using h
      rcases Nat.eq_zero_or_pos (countAfter c t) with hz | hpos
      · left
        refine ⟨t, [false], rfl, ?_, by simp⟩
        simp
        omega
      · rcases ih c (countAfter c t) rfl hpos with ⟨l1, w, hsplit, hlen, hfw⟩ | ⟨hall, hsum⟩
        · left
          refine ⟨l1, w ++ [false], by rw [hsplit, List.append_assoc], by simp; omega, ?_⟩
          intro x hx
          rcases List.mem_append.1 hx with hx | hx
          · exact hfw x hx
          · simpa using hx
        · right
          constructor
          · intro x hx
            rcases List.mem_append.1 hx with hx | hx
            · exact hall x hx
            · simpa using hx
          · simp
            omega

lemma countAfter_hit (l : List Bool) :
    ∀ (c P : ℕ), c < P → P ≤ countAfter c l →
      ∃ k, k < l.length ∧ l.get? k = some false ∧ countAfter c (l.take (k + 1)) = P := by
  induction l with
  | nil =>
    intro c P hc hP
    exfalso
    simp [countAfter] at hP
    omega
  | cons b t ih =>
    intro c P hc hP
    rw [countAfter_cons] at hP
    cases b with
    | true =>
      have h0 : (0 : ℕ) < P := by omega
      rcases ih 0 P h0 (by simpa using hP) with ⟨k, hk, hget, hcA⟩
      exact ⟨k + 1, by simpa using hk, hget, by
        rw [List.take_succ_cons, countAfter_cons]
        simpa using hcA⟩
    | false =>
      by_cases he : c + 1 = P
      · refine ⟨0, by simp, rfl, ?_⟩
        rw [List.take_succ_cons, List.take_zero, countAfter_cons]
        simpa [countAfter] using he
      · have h1 : c + 1 < P := by omega
        rcases ih (c + 1) P h1 (by simpa using hP) with ⟨k, hk, hget, hcA⟩
        exact ⟨k + 1, by simpa using hk, hget, by
          rw [List.take_succ_cons, countAfter_cons]
          simpa using hcA⟩

lemma runFrom_inv (cfg : Config) (env : ℕ → EpochData) :
    ∀ (fuel e : ℕ) (s : St),
      (runFrom cfg env fuel e s).executed ≤ fuel ∧
      (endOutcomes (runFrom cfg env fuel e s).trace).length =
        (runFrom cfg env fuel e s).executed ∧
      ((runFrom cfg env fuel e s).broke = false →
        (runFrom cfg env fuel e s).executed = fuel ∧
        (runFrom cfg env fuel e s).state.count =
          countAfter s.count (endOutcomes (runFrom cfg env fuel e s).trace)) ∧
      ((runFrom cfg env fuel e s).broke = true →
        ∃ l', endOutcomes (runFrom cfg env fuel e s).trace = l' ++ [false] ∧
          ((countAfter s.count (endOutcomes (runFrom cfg env fuel e s).trace) : ℕ) : ℤ) =
            cfg.patience) ∧
      ((∃ k, k < (endOutcomes (runFrom cfg env fuel e s).trace).length ∧
          (endOutcomes (runFrom cfg env fuel e s).trace).get? k = some false ∧
          ((countAfter s.count
              ((endOutcomes (runFrom cfg env fuel e s).trace).take (k + 1)) : ℕ) : ℤ) =
            cfg.patience) →
        (runFrom cfg env fuel e s).broke = true) := by
  intro fuel
  induction fuel with
  | zero =>
    intro e s
    refine ⟨Nat.le_refl 0, rfl, fun _ => ⟨rfl, rfl⟩, fun h => Bool.noConfusion h, ?_⟩
    rintro ⟨k, hk, -, -⟩
    exact absurd hk (by simp [runFrom, endOutcomes])
  | succ fuel ih =>
    intro e s
    have hout := runEpoch_endOutcomes cfg e (env e) s
    have hcount := runEpoch_count cfg e (env e) s
    have hbrkiff := runEpoch_brk_iff cfg e (env e) s
    cases hbrk : (runEpoch cfg e (env e) s).brk with
    | true =>
      obtain ⟨hof, hpat⟩ := hbrkiff.1 hbrk
      rw [hof] at hout
      have hr : runFrom cfg env (fuel + 1) e s =
          { state := (runEpoch cfg e (env e) s).state,
            trace := (runEpoch cfg e (env e) s).trace,
            executed := 1, broke := true } := by
        simp [runFrom, hbrk]
      rw [hr]
      dsimp only
      refine ⟨by omega, by rw [hout]; rfl, fun h => Bool.noConfusion h, fun _ => ?_, fun _ => rfl⟩
      refine ⟨[], by rw [hout]; rfl, ?_⟩
      rw [hout]
      have : countAfter s.count [false] = s.count + 1 := rfl
      rw [this]
      exact_mod_cast hpat
    | false =>
      have hnopair : ¬ (ltBest (endValReduce cfg (env e).endValBatches)
            (runSteps cfg e (env e).steps 0 s).state.best = false ∧
          ((s.count + 1 : ℕ) : ℤ) = cfg.patience) := by
        intro hc
        rw [hbrkiff.2 hc] at hbrk
        cases hbrk
      have hr : runFrom cfg env (fuel + 1) e s =
          { state := (runFrom cfg env fuel (e + 1) (runEpoch cfg e (env e) s).state).state,
            trace := (runEpoch cfg e (env e) s).trace ++
              (runFrom cfg env fuel (e + 1) (runEpoch cfg e (env e) s).state).trace,
            executed :=
              (runFrom cfg env fuel (e + 1) (runEpoch cfg e (env e) s).state).executed + 1,
            broke := (runFrom cfg env fuel (e + 1) (runEpoch cfg e (env e) s).state).broke } := by
        simp [runFrom, hbrk]
      obtain ⟨ih1, ih2, ih3, ih4, ih5⟩ := ih (e + 1) (runEpoch cfg e (env e) s).state
      rw [hr]
      dsimp only
      have hos : endOutcomes ((runEpoch cfg e (env e) s).trace ++
            (runFrom cfg env fuel (e + 1) (runEpoch cfg e (env e) s).state).trace) =
          ltBest (endValReduce cfg (env e).endValBatches)
              (runSteps cfg e (env e).steps 0 s).state.best ::
            endOutcomes (runFrom cfg env fuel (e + 1) (runEpoch cfg e (env e) s).state).trace := by
        rw [endOutcomes_append, hout]
        rfl
      have hkey : ∀ l : List Bool,
          countAfter s.count (ltBest (endValReduce cfg (env e).endValBatches)
              (runSteps cfg e (env e).steps 0 s).state.best :: l) =
            countAfter (runEpoch cfg e (env e) s).state.count l := by
        intro l
        rw [countAfter_cons, ← hcount]
      refine ⟨by omega, ?_, ?_, ?_, ?_⟩
      · rw [hos]
        simp only [List.length_cons]
        omega
      · intro hb
        obtain ⟨hex, hcnt⟩ := ih3 hb
        refine ⟨by omega, ?_⟩
        rw [hos, hkey]
        exact hcnt
      · intro hb
        obtain ⟨l', hsplit, hpat⟩ := ih4 hb
        refine ⟨ltBest (endValReduce cfg (env e).endValBatches)
            (runSteps cfg e (env e).steps 0 s).state.best :: l', ?_, ?_⟩
        · rw [hos, hsplit]
          rfl
        · rw [hos, hkey]
          exact hpat
      · rintro ⟨k, hk, hget, hcA⟩
        rw [hos] at hk hget hcA
        cases k with
        | zero =>
          exfalso
          apply hnopair
          constructor
          · exact Option.some_injective _ hget
          · have h1 : countAfter s.count
                [ltBest (endValReduce cfg (env e).endValBatches)
                  (runSteps cfg e (env e).steps 0 s).state.best] = s.count + 1 := by
              rw [Option.some_injective _ hget]
              rfl
            rw [List.take_succ_cons, List.take_zero] at hcA
            rw [h1] at hcA
            exact hcA
        | succ k' =>
          apply ih5
          refine ⟨k', ?_, hget, ?_⟩
          · simpa using hk
          · rw [List.take_succ_cons, hkey] at hcA
            exact hcA

/-- C1 (corrected): the loop executes at most epochs iterations; when the
patience break never fires it executes the whole range
warm_start_epoch..epochs-1; and the break fires exactly when the patience
is at least 1 and some run of patience-many consecutive epoch-end checks
each fail to improve on the best validation loss so far.  (The break can
fire on the final epoch of the range, in which case all epochs still run:
early termination is implied by, not equivalent to, the consecutive-failure
condition.) -/
theorem epoch_loop_early_stop (cfg : Config) (env : ℕ → EpochData) (d : Bool) :
    (runTrain cfg env d).executed ≤ cfg.epochs ∧
    ((runTrain cfg env d).broke = false →
      (runTrain cfg env d).executed = cfg.epochs - cfg.warmStartEpoch) ∧
    ((runTrain cfg env d).broke = true ↔
      1 ≤ cfg.patience ∧
        hasFalseRun cfg.patience.toNat (endOutcomes (runTrain cfg env d).trace)) := by
  simp only [runTrain]
  obtain ⟨i1, i2, i3, i4, i5⟩ :=
    runFrom_inv cfg env (cfg.epochs - cfg.warmStartEpoch) cfg.warmStartEpoch
      { best := none, count := 0, dir := d }
  dsimp only at i3 i4 i5
  set os := endOutcomes (runFrom cfg env (cfg.epochs - cfg.warmStartEpoch)
    cfg.warmStartEpoch { best := none, count := 0, dir := d }).trace with hosdef
  refine ⟨le_trans i1 (Nat.sub_le _ _), fun hb => (i3 hb).1, ?_, ?_⟩
  · intro hb
    obtain ⟨l', hsplit, hpat⟩ := i4 hb
    have hca : countAfter 0 os = countAfter 0 l' + 1 := by
      rw [hsplit, countAfter_append]
      rfl
    have hp1 : 1 ≤ cfg.patience := by omega
    refine ⟨hp1, ?_⟩
    have hPn : countAfter 0 os = cfg.patience.toNat := by omega
    rcases countAfter_decomp os 0 _ hPn (by omega) with ⟨l1, w, hsp, hlen, hfw⟩ | ⟨hall, hsum⟩
    · exact ⟨l1, w, [], by rw [hsp]; simp, hlen, hfw⟩
    · exact ⟨[], os, [], by simp, by omega, hall⟩
  · rintro ⟨hp, l1, w, l2, hsplit, hlen, hfw⟩
    have hsplit' : os = (l1 ++ w) ++ l2 := by rw [hsplit, List.append_assoc]
    have hga : countAfter 0 (l1 ++ w) = countAfter 0 l1 + w.length := by
      rw [countAfter_append, countAfter_allFalse w _ hfw]
    have hPpos : 0 < cfg.patience.toNat := by omega
    obtain ⟨k, hk, hget, hcA⟩ :=
      countAfter_hit (l1 ++ w) 0 cfg.patience.toNat hPpos (by omega)
    apply i5
    refine ⟨k, ?_, ?_, ?_⟩
    · rw [hsplit', List.length_append]
      omega
    · rw [hsplit', List.get?_append hk]
      exact hget
    · have htake : ((l1 ++ w) ++ l2).take (k + 1) = (l1 ++ w).take (k + 1) := by
        rw [List.take_append_eq_append_take]
        have hz : (k + 1) - (l1 ++ w).length = 0 := by omega
        rw [hz]
        simp
      rw [hsplit', htake, hcA]
      omega

def cfg1cex : Config :=
  { epochs := 1, warmStartEpoch := 0, patience := 1, trainSize := 0, trainBatch := 1,
    valSize := 0, valBatch := 1, warmStart := false }

def env1cex : ℕ → EpochData := fun _ =>
  { steps := [⟨0, []⟩, ⟨0, []⟩, ⟨0, []⟩, ⟨0, [1]⟩], endValBatches := [2] }

/-- C1 counterexample: with E = 1 and patience P = 1, an epoch whose
sub-epoch check (step 4) sets the best to 1 and whose epoch-end check then
fails (loss 2) produces P consecutive failing epoch-end checks and fires
the break, yet the loop still executes all E epochs — it does not terminate
before reaching E epochs, refuting the claimed biconditional. -/
theorem epoch_loop_early_stop_cex :
    hasFalseRun cfg1cex.patience.toNat (endOutcomes (runTrain cfg1cex env1cex true).trace) ∧
    ¬ ((runTrain cfg1cex env1cex true).executed < cfg1cex.epochs) := by
  constructor
  · have h : endOutcomes (runTrain cfg1cex env1cex true).trace = [false] := by
      norm_num [runTrain, runFrom, runEpoch, runSteps, processStep, mkdirIfAbsent,
        subValReduce, endValReduce, trainReduce, ltBest, endOutcomes,
        List.filterMap_cons, cfg1cex, env1cex]
    rw [h]
    exact ⟨[], [false], [], rfl, rfl, by simp⟩
  · have h : (runTrain cfg1cex env1cex true).executed = 1 := by
      norm_num [runTrain, runFrom, runEpoch, runSteps, processStep, mkdirIfAbsent,
        subValReduce, endValReduce, trainReduce, ltBest, cfg1cex, env1cex]
    rw [h]
    norm_num [cfg1cex]

def cfg1w : Config :=
  { epochs := 2, warmStartEpoch := 0, patience := 3, trainSize := 0, trainBatch := 1,
    valSize := 0, valBatch := 1, warmStart := false }

def env1w : ℕ → EpochData := fun _ => { steps := [], endValBatches := [1] }

theorem epoch_loop_early_stop_witness :
    (runTrain cfg1w env1w true).executed = cfg1w.epochs - cfg1w.warmStartEpoch :=
  (epoch_loop_early_stop cfg1w env1w true).2.1 (by
    norm_num [runTrain, runFrom, runEpoch, runSteps, processStep, mkdirIfAbsent,
      subValReduce, endValReduce, trainReduce, ltBest, cfg1w, env1w])

/-- C2 (corrected): the patience counter is unchanged by training steps and
by sub-epoch validation checks — including those that record a new best —
and at each epoch boundary it resets to 0 exactly when the epoch-end check
improves on the best, otherwise incrementing by one. -/
theorem patience_counter_sites (cfg : Config) :
    (∀ (epoch i : ℕ) (sd : StepData) (s : St),
      (processStep cfg epoch i sd s).state.count = s.count) ∧
    (∀ (epoch : ℕ) (l : List StepData) (i : ℕ) (s : St),
      (runSteps cfg epoch l i s).state.count = s.count) ∧
    (∀ (epoch : ℕ) (ep : EpochData) (s : St),
      (runEpoch cfg epoch ep s).state.count =
        if ltBest (endValReduce cfg ep.endValBatches)
            (runSteps cfg epoch ep.steps 0 s).state.best then 0
        else s.count + 1) :=
  ⟨fun epoch i sd s => processStep_count cfg epoch i sd s,
   fun epoch l i s => runSteps_count cfg epoch l i s,
   fun epoch ep s => runEpoch_count cfg epoch ep s⟩

def cfg2cex : Config :=
  { epochs := 2, warmStartEpoch := 0, patience := 5, trainSize := 0, trainBatch := 1,
    valSize := 0, valBatch := 1, warmStart := false }

def env2cex : ℕ → EpochData := fun e =>
  if e = 0 then
    { steps := [⟨0, []⟩, ⟨0, []⟩, ⟨0, []⟩, ⟨0, [2]⟩], endValBatches := [3] }
  else
    { steps := [⟨0, []⟩, ⟨0, []⟩, ⟨0, []⟩, ⟨0, [1]⟩], endValBatches := [3] }

/-- C2 counterexample: in a run whose first epoch ends without improvement
(counter becomes 1), the second epoch's sub-epoch check records a new best
(1 < 2, improved = true) while the counter stays at 1 — the trace contains
a sub-epoch check event marked improved with counter value 1, so the
counter does not reset to 0 when a new best is recorded sub-epoch. -/
theorem patience_counter_sites_cex :
    Event.subCheck 1 true 1 ∈ (runTrain cfg2cex env2cex true).trace := by
  norm_num [runTrain, runFrom, runEpoch, runSteps, processStep, mkdirIfAbsent,
    subValReduce, endValReduce, trainReduce, ltBest, cfg2cex, env2cex]

/-- C4 (confirmed): a sub-epoch validation runs at a training step exactly
when the 1-indexed step index i+1 is divisible by 4, and a sub-epoch
checkpoint save appears exactly when that validation's mean loss is
strictly below the best so far, tagged with the pseudo-epoch label
(i+1)/6 and that loss (and the save runs with the directory present). -/
theorem sub_epoch_check_schedule (cfg : Config) (epoch i : ℕ) (sd : StepData) (s : St) :
    ((∃ v imp c, Event.subCheck v imp c ∈ (processStep cfg epoch i sd s).trace) ↔
      (i + 1) % 4 = 0) ∧
    (∀ (lab : ℕ) (v : ℚ) (d : Bool),
      Event.saveSub lab v d ∈ (processStep cfg epoch i sd s).trace ↔
        ((i + 1) % 4 = 0 ∧ lab = (i + 1) / 6 ∧ v = subValReduce cfg sd.valBatches ∧
          ltBest (subValReduce cfg sd.valBatches) s.best = true ∧ d = true)) := by
  by_cases h4 : (i + 1) % 4 = 0
  · by_cases himp : ltBest (subValReduce cfg sd.valBatches) s.best = true
    · simp [processStep, h4, himp, mkdirIfAbsent_dir]
    · simp [processStep, h4, himp]
  · simp [processStep, h4]

lemma ltBest_bestLt {v : ℚ} {b : Option ℚ} (h : ltBest v b = true) : bestLt (some v) b := by
  cases b with
  | none => trivial
  | some x =>
    show v < x
    exact of_decide_eq_true h

lemma bestLt_trans {a b c : Option ℚ} (h1 : bestLt a b) (h2 : bestLt b c) : bestLt a c := by
  cases a with
  | none => exact h1.elim
  | some y =>
    cases b with
    | none => exact h2.elim
    | some x =>
      cases c with
      | none => trivial
      | some z => exact lt_trans h1 h2

lemma bestNonInc_trans {a b c : Option ℚ} (h1 : a = b ∨ bestLt a b)
    (h2 : b = c ∨ bestLt b c) : a = c ∨ bestLt a c := by
  rcases h1 with rfl | h1
  · exact h2
  · rcases h2 with rfl | h2
    · exact Or.inr h1
    · exact Or.inr (bestLt_trans h1 h2)

lemma processStep_best (cfg : Config) (epoch i : ℕ) (sd : StepData) (s : St) :
    (processStep cfg epoch i sd s).state.best = s.best ∨
      bestLt (processStep cfg epoch i sd s).state.best s.best := by
  unfold processStep
  split
  · dsimp only
    split
    case isTrue h =>
      right
      rw [mkdirIfAbsent_best]
      exact ltBest_bestLt h
    case isFalse h => exact Or.inl rfl
  · exact Or.inl rfl

lemma runSteps_best (cfg : Config) (epoch : ℕ) (l : List StepData) :
    ∀ (i : ℕ) (s : St),
      (runSteps cfg epoch l i s).state.best = s.best ∨
        bestLt (runSteps cfg epoch l i s).state.best s.best := by
  induction l with
  | nil => intro i s; exact Or.inl rfl
  | cons sd rest ih =>
    intro i s
    exact bestNonInc_trans (ih (i + 1) (processStep cfg epoch i sd s).state)
      (processStep_best cfg epoch i sd s)

lemma runEpoch_best (cfg : Config) (epoch : ℕ) (ep : EpochData) (s : St) :
    (runEpoch cfg epoch ep s).state.best = s.best ∨
      bestLt (runEpoch cfg epoch ep s).state.best s.best := by
  have hsteps := runSteps_best cfg epoch ep.steps 0 s
  unfold runEpoch
  dsimp only
  split
  case isTrue h =>
    refine bestNonInc_trans ?_ hsteps
    right
    rw [mkdirIfAbsent_best]
    exact ltBest_bestLt h
  case isFalse h => exact hsteps

lemma runFrom_best (cfg : Config) (env : ℕ → EpochData) :
    ∀ (fuel e : ℕ) (s : St),
      (runFrom cfg env fuel e s).state.best = s.best ∨
        bestLt (runFrom cfg env fuel e s).state.best s.best := by
  intro fuel
  induction fuel with
  | zero => intro e s; exact Or.inl rfl
  | succ fuel ih =>
    intro e s
    cases hbrk : (runEpoch cfg e (env e) s).brk with
    | true =>
      have hr : runFrom cfg env (fuel + 1) e s =
          { state := (runEpoch cfg e (env e) s).state,
            trace := (runEpoch cfg e (env e) s).trace,
            executed := 1, broke := true } := by
        simp [runFrom, hbrk]
      rw [hr]
      exact runEpoch_best cfg e (env e) s
    | false =>
      have hr : runFrom cfg env (fuel + 1) e s =
          { state := (runFrom cfg env fuel (e + 1) (runEpoch cfg e (env e) s).state).state,
            trace := (runEpoch cfg e (env e) s).trace ++
              (runFrom cfg env fuel (e + 1) (runEpoch cfg e (env e) s).state).trace,
            executed :=
              (runFrom cfg env fuel (e + 1) (runEpoch cfg e (env e) s).state).executed + 1,
            broke := (runFrom cfg env fuel (e + 1) (runEpoch cfg e (env e) s).state).broke } := by
        simp [runFrom, hbrk]
      rw [hr]
      exact bestNonInc_trans (ih (e + 1) (runEpoch cfg e (env e) s).state)
        (runEpoch_best cfg e (env e) s)

/-- C5 (confirmed): every transition of the loop either leaves the running
best validation loss unchanged or replaces it by a strictly smaller value
(both at sub-epoch checks and at epoch boundaries), so across any run —
which starts from best = none, the encoding of the initial +infinity —
the best is monotonically non-increasing. -/
theorem best_val_loss_monotone :
    (∀ (cfg : Config) (epoch i : ℕ) (sd : StepData) (s : St),
      (processStep cfg epoch i sd s).state.best = s.best ∨
        bestLt (processStep cfg epoch i sd s).state.best s.best) ∧
    (∀ (cfg : Config) (epoch : ℕ) (ep : EpochData) (s : St),
      (runEpoch cfg epoch ep s).state.best = s.best ∨
        bestLt (runEpoch cfg epoch ep s).state.best s.best) ∧
    (∀ (cfg : Config) (env : ℕ → EpochData) (fuel e : ℕ) (s : St),
      (runFrom cfg env fuel e s).state.best = s.best ∨
        bestLt (runFrom cfg env fuel e s).state.best s.best) :=
  ⟨processStep_best, runEpoch_best, fun cfg env fuel e s => runFrom_best cfg env fuel e s⟩

lemma runEpoch_mem_saveEpoch (cfg : Config) (epoch : ℕ) (ep : EpochData) (s : St) :
    Event.saveEpoch (epoch + 1) (endValReduce cfg ep.endValBatches)
        (runSteps cfg epoch ep.steps 0 s).state.dir ∈ (runEpoch cfg epoch ep s).trace ∧
    Event.epochLog (epoch + 1) (trainReduce cfg (ep.steps.map StepData.trainLoss))
        (endValReduce cfg ep.endValBatches) ∈ (runEpoch cfg epoch ep s).trace := by
  unfold runEpoch
  dsimp only
  split <;> constructor <;> simp

/-- C6 (confirmed): every executed epoch ends with an unconditional
checkpoint save tagged with the true 1-indexed epoch number and the epoch
validation loss, and with the paired train/val epoch mean losses emitted to
the metrics sink, so a checkpoint event labeled with the epoch exists for
every epoch actually run. -/
theorem epoch_end_unconditional_persist (cfg : Config) (env : ℕ → EpochData) :
    ∀ (fuel e0 : ℕ) (s : St) (k : ℕ), k < (runFrom cfg env fuel e0 s).executed →
      (∃ d, Event.saveEpoch (e0 + k + 1) (endValReduce cfg (env (e0 + k)).endValBatches) d ∈
          (runFrom cfg env fuel e0 s).trace) ∧
      Event.epochLog (e0 + k + 1)
          (trainReduce cfg ((env (e0 + k)).steps.map StepData.trainLoss))
          (endValReduce cfg (env (e0 + k)).endValBatches) ∈
        (runFrom cfg env fuel e0 s).trace := by
  intro fuel
  induction fuel with
  | zero =>
    intro e0 s k hk
    exact absurd hk (by simp [runFrom])
  | succ fuel ih =>
    intro e0 s k hk
    cases hbrk : (runEpoch cfg e0 (env e0) s).brk with
    | true =>
      have hr : runFrom cfg env (fuel + 1) e0 s =
          { state := (runEpoch cfg e0 (env e0) s).state,
            trace := (runEpoch cfg e0 (env e0) s).trace,
            executed := 1, broke := true } := by
        simp [runFrom, hbrk]
      rw [hr] at hk ⊢
      dsimp only at hk ⊢
      have hk0 : k = 0 := by omega
      subst hk0
      obtain ⟨m1, m2⟩ := runEpoch_mem_saveEpoch cfg e0 (env e0) s
      exact ⟨⟨_, m1⟩, m2⟩
    | false =>
      have hr : runFrom cfg env (fuel + 1) e0 s =
          { state := (runFrom cfg env fuel (e0 + 1) (runEpoch cfg e0 (env e0) s).state).state,
            trace := (runEpoch cfg e0 (env e0) s).trace ++
              (runFrom cfg env fuel (e0 + 1) (runEpoch cfg e0 (env e0) s).state).trace,
            executed :=
              (runFrom cfg env fuel (e0 + 1) (runEpoch cfg e0 (env e0) s).state).executed + 1,
            broke := (runFrom cfg env fuel (e0 + 1) (runEpoch cfg e0 (env e0) s).state).broke } := by
        simp [runFrom, hbrk]
      rw [hr] at hk ⊢
      dsimp only at hk ⊢
      cases k with
      | zero =>
        obtain ⟨m1, m2⟩ := runEpoch_mem_saveEpoch cfg e0 (env e0) s
        exact ⟨⟨_, List.mem_append_left _ m1⟩, List.mem_append_left _ m2⟩
      | succ k' =>
        have hk' : k' <
            (runFrom cfg env fuel (e0 + 1) (runEpoch cfg e0 (env e0) s).state).executed := by
          omega
        obtain ⟨⟨d0, m1⟩, m2⟩ := ih (e0 + 1) (runEpoch cfg e0 (env e0) s).state k' hk'
        have harith : e0 + 1 + k' = e0 + (k' + 1) := by omega
        rw [harith] at m1 m2
        exact ⟨⟨d0, List.mem_append_right _ m1⟩, List.mem_append_right _ m2⟩

def cfg6w : Config :=
  { epochs := 1, warmStartEpoch := 0, patience := 5, trainSize := 0, trainBatch := 1,
    valSize := 0, valBatch := 1, warmStart := false }

def env6w : ℕ → EpochData := fun _ => { steps := [], endValBatches := [1] }

theorem epoch_end_unconditional_persist_witness :
    (∃ d, Event.saveEpoch (0 + 0 + 1) (endValReduce cfg6w (env6w (0 + 0)).endValBatches) d ∈
        (runFrom cfg6w env6w 1 0 { best := none, count := 0, dir := true }).trace) ∧
    Event.epochLog (0 + 0 + 1)
        (trainReduce cfg6w ((env6w (0 + 0)).steps.map StepData.trainLoss))
        (endValReduce cfg6w (env6w (0 + 0)).endValBatches) ∈
      (runFrom cfg6w env6w 1 0 { best := none, count := 0, dir := true }).trace :=
  epoch_end_unconditional_persist cfg6w env6w 1 0
    { best := none, count := 0, dir := true } 0
    (by norm_num [runFrom, runEpoch, runSteps, processStep, mkdirIfAbsent,
      endValReduce, trainReduce, ltBest, cfg6w, env6w])

lemma processStep_filter_subSave (cfg : Config) (epoch i : ℕ) (sd : StepData) (s : St) :
    (processStep cfg epoch i sd s).trace.filter subSaveWithoutDir = [] := by
  unfold processStep
  split
  · dsimp only
    split
    · simp [subSaveWithoutDir, mkdirIfAbsent_dir, List.filter_cons]
    · simp [subSaveWithoutDir, List.filter_cons]
  · simp [subSaveWithoutDir, List.filter_cons]

lemma runSteps_filter_subSave (cfg : Config) (epoch : ℕ) (l : List StepData) :
    ∀ (i : ℕ) (s : St), (runSteps cfg epoch l i s).trace.filter subSaveWithoutDir = [] := by
  induction l with
  | nil => intro i s; rfl
  | cons sd rest ih =>
    intro i s
    show (((processStep cfg epoch i sd s).trace ++ _).filter subSaveWithoutDir) = []
    rw [List.filter_append, processStep_filter_subSave, ih]
    rfl

lemma runEpoch_filter_subSave (cfg : Config) (epoch : ℕ) (ep : EpochData) (s : St) :
    (runEpoch cfg epoch ep s).trace.filter subSaveWithoutDir = [] := by
  unfold runEpoch
  dsimp only
  split <;>
    · rw [List.filter_append, List.filter_append, runSteps_filter_subSave]
      rfl

/-- C7 (corrected): every sub-epoch checkpoint save executes with the
checkpoint directory present (the improvement branch creates it just
before saving), i.e. no sub-epoch save event carries a missing-directory
flag; the unconditional epoch-end save, however, performs no such check
(see the counterexample, where it fires against an absent directory). -/
theorem sub_save_directory_guard (cfg : Config) (env : ℕ → EpochData) :
    ∀ (fuel e : ℕ) (s : St),
      (runFrom cfg env fuel e s).trace.filter subSaveWithoutDir = [] := by
  intro fuel
  induction fuel with
  | zero => intro e s; rfl
  | succ fuel ih =>
    intro e s
    cases hbrk : (runEpoch cfg e (env e) s).brk with
    | true =>
      have hr : runFrom cfg env (fuel + 1) e s =
          { state := (runEpoch cfg e (env e) s).state,
            trace := (runEpoch cfg e (env e) s).trace,
            executed := 1, broke := true } := by
        simp [runFrom, hbrk]
      rw [hr]
      exact runEpoch_filter_subSave cfg e (env e) s
    | false =>
      have hr : runFrom cfg env (fuel + 1) e s =
          { state := (runFrom cfg env fuel (e + 1) (runEpoch cfg e (env e) s).state).state,
            trace := (runEpoch cfg e (env e) s).trace ++
              (runFrom cfg env fuel (e + 1) (runEpoch cfg e (env e) s).state).trace,
            executed :=
              (runFrom cfg env fuel (e + 1) (runEpoch cfg e (env e) s).state).executed + 1,
            broke := (runFrom cfg env fuel (e + 1) (runEpoch cfg e (env e) s).state).broke } := by
        simp [runFrom, hbrk]
      rw [hr]
      dsimp only
      rw [List.filter_append, runEpoch_filter_subSave, ih]
      rfl

def cfg7cex : Config :=
  { epochs := 1, warmStartEpoch := 0, patience := 5, trainSize := 0, trainBatch := 1,
    valSize := 0, valBatch := 1, warmStart := false }

def env7cex : ℕ → EpochData := fun _ => { steps := [], endValBatches := [1] }

/-- C7 counterexample: in a run that starts with the checkpoint directory
absent and whose single epoch has fewer than 4 steps (so no sub-epoch save
ever creates the directory), the unconditional epoch-end save fires while
the directory still does not exist — a save is attempted against a
non-existent checkpoint directory, refuting the claim for every save. -/
theorem sub_save_directory_guard_cex :
    Event.saveEpoch 1 1 false ∈ (runTrain cfg7cex env7cex false).trace := by
  norm_num [runTrain, runFrom, runEpoch, runSteps, processStep, mkdirIfAbsent,
    subValReduce, endValReduce, trainReduce, ltBest, cfg7cex, env7cex]

lemma runEpoch_brk_nonpos (cfg : Config) (h : cfg.patience ≤ 0) (epoch : ℕ)
    (ep : EpochData) (s : St) : (runEpoch cfg epoch ep s).brk = false := by
  cases hb : (runEpoch cfg epoch ep s).brk with
  | false => rfl
  | true =>
    obtain ⟨-, hpat⟩ := (runEpoch_brk_iff cfg epoch ep s).1 hb
    exfalso
    omega

/-- C10 (confirmed): when the configured patience is zero or negative, the
break comparison count == patience can never succeed (the counter is
compared only right after incrementing to a positive value), so the loop
never stops early and runs the full configured epoch range. -/
theorem nonpositive_patience_runs_all (cfg : Config) (env : ℕ → EpochData) (d : Bool)
    (h : cfg.patience ≤ 0) :
    (runTrain cfg env d).broke = false ∧
    (runTrain cfg env d).executed = cfg.epochs - cfg.warmStartEpoch := by
  have main : ∀ (fuel e : ℕ) (s : St),
      (runFrom cfg env fuel e s).broke = false ∧
        (runFrom cfg env fuel e s).executed = fuel := by
    intro fuel
    induction fuel with
    | zero => intro e s; exact ⟨rfl, rfl⟩
    | succ fuel ih =>
      intro e s
      have hb := runEpoch_brk_nonpos cfg h e (env e) s
      have hr : runFrom cfg env (fuel + 1) e s =
          { state := (runFrom cfg env fuel (e + 1) (runEpoch cfg e (env e) s).state).state,
            trace := (runEpoch cfg e (env e) s).trace ++
              (runFrom cfg env fuel (e + 1) (runEpoch cfg e (env e) s).state).trace,
            executed :=
              (runFrom cfg env fuel (e + 1) (runEpoch cfg e (env e) s).state).executed + 1,
            broke := (runFrom cfg env fuel (e + 1) (runEpoch cfg e (env e) s).state).broke } := by
        simp [runFrom, hb]
      rw [hr]
      dsimp only
      obtain ⟨h1, h2⟩ := ih (e + 1) (runEpoch cfg e (env e) s).state
      exact ⟨h1, by omega⟩
  simp only [runTrain]
  exact main (cfg.epochs - cfg.warmStartEpoch) cfg.warmStartEpoch
    { best := none, count := 0, dir := d }

def cfg10w : Config :=
  { epochs := 2, warmStartEpoch := 0, patience := 0, trainSize := 0, trainBatch := 1,
    valSize := 0, valBatch := 1, warmStart := false }

def env10w : ℕ → EpochData := fun _ => { steps := [], endValBatches := [1] }

theorem nonpositive_patience_runs_all_witness :
    (runTrain cfg10w env10w true).broke = false ∧
    (runTrain cfg10w env10w true).executed = cfg10w.epochs - cfg10w.warmStartEpoch :=
  nonpositive_patience_runs_all cfg10w env10w true (by norm_num [cfg10w])

end StyleTrain
